import Mathlib

/-!
Verification of the categorization and aggregation engine of
`expense_tracker` (src/tracker.py) against its specification.

Python dictionaries are embedded as insertion-ordered association lists
`List (String × α)` (lookup returns the first entry with the given key,
`update` rewrites in place or appends), transactions as
`(description, debit amount)` pairs with amounts in `ℚ`, and the
"category"/"category family" columns as `Option String` where `none` is
Python `None` / an absent column value.
-/

namespace Tracker

/-- Python dict lookup `d.get(k)` over an insertion-ordered association
list: the value of the first entry whose key equals `k`, else `none`. -/
def dictGet {α : Type} : List (String × α) → String → Option α
  | [], _ => none
  | (k0, v0) :: rest, k => if k0 = k then some v0 else dictGet rest k

/-- The keys of a Python dict, in iteration (= insertion) order. -/
def dictKeys {α : Type} (m : List (String × α)) : List String :=
  m.map Prod.fst

/-- Python `d.update(\x7bk: v\x7d)`: when `k` is already a key the entry is
rewritten in place (position kept), otherwise a new entry is appended. -/
def dictUpdate {α : Type} (m : List (String × α)) (k : String) (v : α) :
    List (String × α) :=
  if k ∈ dictKeys m then
    m.map (fun p => if p.1 = k then (k, v) else p)
  else m ++ [(k, v)]

/-- One step of the longest-common-subsequence recurrence: `f` stands for
`lcsLen` applied to the first list's tail. -/
def lcsStep (a : Char) (f : List Char → Nat) : List Char → Nat
  | [] => 0
  | c :: cs => if a = c then f cs + 1 else max (lcsStep a f cs) (f (c :: cs))

/-- Length of a longest common subsequence of two character lists. -/
def lcsLen : List Char → List Char → Nat
  | [] => fun _ => 0
  | a :: as => lcsStep a (lcsLen as)

/-- Round `num / den` (with `den > 0`) to the nearest natural number,
ties going to the even one — Python 3's `round` on a nonnegative value. -/
def roundHalfEven (num den : Nat) : Nat :=
  let q := num / den
  let r := num % den
  if 2 * r < den then q
  else if den < 2 * r then q + 1
  else if q % 2 = 0 then q else q + 1

/-- Modelled from the spec: the similarity call at src/tracker.py:142 uses
the external fuzzywuzzy library, which is not part of this repository; the
spec describes it as "a normalized string-similarity ratio (0-100 scale,
e.g., Levenshtein-based)" with "normalized Levenshtein similarity"
recommended.  This is exactly that function: with `d` the edit distance in
which a substitution costs 2, the score is
`round(100 * (|a| + |b| - d) / (|a| + |b|))  =  round(200 * lcs / (|a| + |b|))`,
ties to even; two empty strings score 100. -/
def fuzzScore (a b : String) : Nat :=
  let total := a.length + b.length
  if total = 0 then 100
  else roundHalfEven (200 * lcsLen a.toList b.toList) total

/-- Python `str.lower()`, character by character (faithful on ASCII, the
alphabet of merchant descriptions; on characters with no ASCII case it is
the identity). -/
def lower (s : String) : String :=
  ⟨s.data.map Char.toLower⟩

/-- src/tracker.py:132-135 `add_merchant_category`: exact, case-sensitive
dict lookup of the transaction description; an unknown description yields
`none` (Python `None`), never an error. -/
def add_merchant_category (merchant_mapping : List (String × String))
    (description : String) : Option String :=
  dictGet merchant_mapping description

/-- The inner loop of src/tracker.py:141-147: scan the mapping's keys in
iteration order and return the category value of the first key whose
case-insensitive similarity score with `merchant` reaches 80. -/
def firstFuzzyMatch : List (String × String) → String → Option String
  | [], _ => none
  | (k, v) :: rest, merchant =>
      if 80 ≤ fuzzScore (lower merchant) (lower k) then some v
      else firstFuzzyMatch rest merchant

/-- src/tracker.py:137-149 `process_unrecognized_merchants`: process the
unresolved descriptions in the order given, learning each fuzzy match into
the mapping immediately (so later descriptions are also compared against
newly added keys); returns the final mapping together with the
`still_unrecognized` list. -/
def process_unrecognized_merchants :
    List (String × String) → List String → List (String × String) × List String
  | mapping, [] => (mapping, [])
  | mapping, merchant :: rest =>
      match firstFuzzyMatch mapping merchant with
      | some v => process_unrecognized_merchants (dictUpdate mapping merchant v) rest
      | none =>
          let r := process_unrecognized_merchants mapping rest
          (r.1, merchant :: r.2)

/-- Python `row["Category"] in children` where the category may be `None`;
`None` is never an element of a list of category-name strings. -/
def catMem (cat : Option String) (children : List String) : Bool :=
  match cat with
  | none => false
  | some c => children.contains c

/-- The loop of src/tracker.py:160-165, with `acc` the current value of
`row["Category Family"]` (`none` = the column was never assigned). -/
def add_category_family_loop :
    List (String × List String) → Option String → Option String → Option String
  | [], _, acc => acc
  | (fam, children) :: rest, cat, _ =>
      if catMem cat children then some fam
      else add_category_family_loop rest cat (some "Wants")

/-- src/tracker.py:159-166 `add_category_family`: each iteration either
assigns the matching family and breaks, or overwrites the column with the
default "Wants" and continues; with an empty mapping the column is never
assigned at all. -/
def add_category_family (mapping : List (String × List String))
    (cat : Option String) : Option String :=
  add_category_family_loop mapping cat none

/-- Round a rational to the nearest integer, ties to even — the tie rule of
numpy/pandas `round(x, 0)` used at src/tracker.py:104. -/
def roundHalfEvenQ (x : ℚ) : ℤ :=
  if x - Int.floor x < 1 / 2 then Int.floor x
  else if 1 / 2 < x - Int.floor x then Int.floor x + 1
  else if Int.floor x % 2 = 0 then Int.floor x else Int.floor x + 1

/-- Ascending string order (lexicographic by code point), the order pandas
uses to sort group keys. -/
def strLe (a b : String) : Prop :=
  a.data ≤ b.data

instance : DecidableRel strLe :=
  fun a b => inferInstanceAs (Decidable (a.data ≤ b.data))

instance : IsTotal String strLe :=
  ⟨fun a b => le_total a.data b.data⟩

instance : IsTrans String strLe :=
  ⟨fun _ _ _ hab hbc => le_trans hab hbc⟩

/-- The group keys produced by pandas `groupby`: the distinct non-null key
values, sorted ascending (groupby's default `sort=True, dropna=True`). -/
def sortedKeys (rows : List (Option String × ℚ)) : List String :=
  List.insertionSort strLe (rows.filterMap Prod.fst).dedup

/-- Sum of `Debit Amount` over the rows whose group key is `k`. -/
def groupSum (rows : List (Option String × ℚ)) (k : String) : ℚ :=
  ((rows.filter (fun r => decide (r.1 = some k))).map Prod.snd).sum

/-- `df["Debit Amount"].sum()` taken after grouping (src/tracker.py:105):
the grand total over the grouped rows, i.e. over rows with a non-null key. -/
def groupedTotal (rows : List (Option String × ℚ)) : ℚ :=
  ((sortedKeys rows).map (groupSum rows)).sum

/-- src/tracker.py:87-90, the "Extended view": group by category (pandas
drops null keys), sum debit amounts per group, rows sorted by category name
ascending; no percentage column. -/
def aggregate_by_category (rows : List (Option String × ℚ)) :
    List (String × ℚ) :=
  (sortedKeys rows).map (fun k => (k, groupSum rows k))

/-- src/tracker.py:96-107 `get_expenses_by_category_families`: group by
family, sum debit amounts, and add a percentage column
`round(group / total * 100, 0)`.  When the grand total is 0 the pandas
float division yields NaN (for a zero group) or ±inf (for a nonzero one),
never a number: that non-finite outcome is embedded as `none`. -/
def get_expenses_by_category_families (rows : List (Option String × ℚ)) :
    List (String × ℚ × Option ℤ) :=
  let total := groupedTotal rows
  (sortedKeys rows).map (fun k =>
    (k, groupSum rows k,
      if total = 0 then none
      else some (roundHalfEvenQ (groupSum rows k * 100 / total))))

/-- src/tracker.py:47: assign every transaction its category by exact
lookup of the description. -/
def categorize (mm : List (String × String)) (txns : List (String × ℚ)) :
    List (Option String × ℚ) :=
  txns.map (fun t => (add_merchant_category mm t.1, t.2))

/-- src/tracker.py:62 after line 47: assign every transaction its category
family from the category obtained by exact lookup (the reconciliation pass
does not re-categorize rows within the run). -/
def familize (mm : List (String × String)) (fm : List (String × List String))
    (txns : List (String × ℚ)) : List (Option String × ℚ) :=
  txns.map (fun t => (add_category_family fm (add_merchant_category mm t.1), t.2))

/-- The by-family report of src/tracker.py:80-82 at pipeline level.  The
"Category Family" column comes into existence only through the assignments
inside `add_category_family` (src/tracker.py:162 and 165): when the
statement has rows and the family mapping is nonempty, every row is
assigned and the column exists; with an empty family mapping (or an empty
statement) no assignment ever happens, the column is absent from the
DataFrame, and the groupby on it at src/tracker.py:99 raises KeyError —
embedded as `none`. -/
def by_family_view (mm : List (String × String)) (fm : List (String × List String))
    (txns : List (String × ℚ)) : Option (List (String × ℚ × Option ℤ)) :=
  match txns, fm with
  | t :: ts, f :: fs =>
      some (get_expenses_by_category_families (familize mm (f :: fs) (t :: ts)))
  | _, _ => none

/-- src/tracker.py:8: the module-level constant naming the default
merchant-mapping file. -/
def MERCHANT_MAPPING : String := "merchant_category_mapping.json"

/-- One reconciliation run against a file store (path → stored mapping):
`ExpenseTracker.__init__` (src/tracker.py:30-31) loads the merchant mapping
from the *configured* path (`none`, a fatal error, when the file is
missing), while `process_unrecognized_merchants` (src/tracker.py:151-152)
writes the updated mapping back to the hardcoded `MERCHANT_MAPPING` path. -/
def reconcileRun (fs : List (String × List (String × String)))
    (configuredPath : String) (merchants : List String) :
    Option (List (String × List (String × String)) × List String) :=
  match dictGet fs configuredPath with
  | none => none
  | some m0 =>
      let r := process_unrecognized_merchants m0 merchants
      some (dictUpdate fs MERCHANT_MAPPING r.1, r.2)

/-! ### Dictionary lemmas -/

theorem dictKeys_cons {α : Type} (p : String × α) (m : List (String × α)) :
    dictKeys (p :: m) = p.1 :: dictKeys m := rfl

theorem dictGet_eq_none {α : Type} :
    ∀ (m : List (String × α)) (k : String), (∀ p ∈ m, p.1 ≠ k) → dictGet m k = none
  | [], _, _ => rfl
  | p :: rest, k, h => by
      have hp : p.1 ≠ k := h p (by simp)
      simp only [dictGet, if_neg hp]
      exact dictGet_eq_none rest k (fun q hq => h q (by simp [hq]))

theorem dictGet_ne_none_of_key_mem {α : Type} :
    ∀ (m : List (String × α)) (p : String × α), p ∈ m → dictGet m p.1 ≠ none
  | [], p, h => by simp at h
  | q :: rest, p, h => by
      by_cases hq : q.1 = p.1
      · simp [dictGet, hq]
      · have hp : p ∈ rest := by
          rcases List.mem_cons.mp h with h1 | h1
          · exact absurd (congrArg Prod.fst h1.symm) hq
          · exact h1
        simp only [dictGet, if_neg hq]
        exact dictGet_ne_none_of_key_mem rest p hp

theorem dictGet_of_mem_nodup {α : Type} :
    ∀ (m : List (String × α)) (k : String) (v : α),
      (k, v) ∈ m → (dictKeys m).Nodup → dictGet m k = some v
  | [], _, _, h, _ => by simp at h
  | q :: rest, k, v, h, hnd => by
      rcases List.mem_cons.mp h with h1 | h1
      · simp [dictGet, ← h1]
      · have hk : k ∈ dictKeys rest := by
          simp only [dictKeys, List.mem_map]
          exact ⟨(k, v), h1, rfl⟩
        rw [dictKeys_cons] at hnd
        have hq : q.1 ≠ k := by
          intro he
          exact (List.nodup_cons.mp hnd).1 (he ▸ hk)
        simp only [dictGet, if_neg hq]
        exact dictGet_of_mem_nodup rest k v h1 (List.nodup_cons.mp hnd).2

theorem dictGet_append_of_some {α : Type} :
    ∀ (m1 m2 : List (String × α)) (k : String) (v : α),
      dictGet m1 k = some v → dictGet (m1 ++ m2) k = some v
  | [], _, _, _, h => by simp [dictGet] at h
  | q :: rest, m2, k, v, h => by
      by_cases hq : q.1 = k
      · simpa [dictGet, hq] using (by simpa [dictGet, hq] using h : q.2 = v)
      · simp only [dictGet, if_neg hq] at h
        simp only [List.cons_append, dictGet, if_neg hq]
        exact dictGet_append_of_some rest m2 k v h

theorem dictGet_append_of_none {α : Type} :
    ∀ (m1 m2 : List (String × α)) (k : String),
      dictGet m1 k = none → dictGet (m1 ++ m2) k = dictGet m2 k
  | [], _, _, _ => rfl
  | q :: rest, m2, k, h => by
      by_cases hq : q.1 = k
      · simp [dictGet, hq] at h
      · simp only [dictGet, if_neg hq] at h
        simp only [List.cons_append, dictGet, if_neg hq]
        exact dictGet_append_of_none rest m2 k h

theorem dictGet_map_rewrite {α : Type} (k : String) (v : α) :
    ∀ (m : List (String × α)), k ∈ dictKeys m →
      dictGet (m.map (fun p => if p.1 = k then (k, v) else p)) k = some v
  | [], h => by simp [dictKeys] at h
  | p :: rest, h => by
      by_cases hp : p.1 = k
      · have hf : (if p.1 = k then (k, v) else p) = (k, v) := if_pos hp
        rw [List.map_cons, hf]
        simp [dictGet]
      · have hr : k ∈ dictKeys rest := by
          rw [dictKeys_cons] at h
          rcases List.mem_cons.mp h with h1 | h1
          · exact absurd h1.symm hp
          · exact h1
        have hf : (if p.1 = k then (k, v) else p) = p := if_neg hp
        rw [List.map_cons, hf]
        simp only [dictGet, if_neg hp]
        exact dictGet_map_rewrite k v rest hr

theorem dictGet_map_rewrite_ne {α : Type} (k0 k : String) (v : α) (h : k0 ≠ k) :
    ∀ (m : List (String × α)),
      dictGet (m.map (fun p => if p.1 = k0 then (k0, v) else p)) k = dictGet m k
  | [] => rfl
  | p :: rest => by
      by_cases hp : p.1 = k0
      · have hf : (if p.1 = k0 then (k0, v) else p) = (k0, v) := if_pos hp
        have hpk : p.1 ≠ k := fun he => h (hp.symm.trans he)
        rw [List.map_cons, hf]
        simp only [dictGet, if_neg h, if_neg hpk]
        exact dictGet_map_rewrite_ne k0 k v h rest
      · have hf : (if p.1 = k0 then (k0, v) else p) = p := if_neg hp
        rw [List.map_cons, hf]
        by_cases hpk : p.1 = k
        · simp [dictGet, hpk]
        · simp only [dictGet, if_neg hpk]
          exact dictGet_map_rewrite_ne k0 k v h rest

theorem dictGet_update_self {α : Type} (m : List (String × α)) (k : String) (v : α) :
    dictGet (dictUpdate m k v) k = some v := by
  unfold dictUpdate
  by_cases hmem : k ∈ dictKeys m
  · rw [if_pos hmem]
    exact dictGet_map_rewrite k v m hmem
  · rw [if_neg hmem]
    have hnone : dictGet m k = none := by
      apply dictGet_eq_none
      intro p hp he
      apply hmem
      simp only [dictKeys, List.mem_map]
      exact ⟨p, hp, he⟩
    rw [dictGet_append_of_none m _ k hnone]
    simp [dictGet]

theorem dictGet_update_ne {α : Type} (m : List (String × α)) (k0 k : String) (v : α)
    (h : k0 ≠ k) : dictGet (dictUpdate m k0 v) k = dictGet m k := by
  unfold dictUpdate
  by_cases hmem : k0 ∈ dictKeys m
  · rw [if_pos hmem]
    exact dictGet_map_rewrite_ne k0 k v h m
  · rw [if_neg hmem]
    cases hm : dictGet m k with
    | some w => exact dictGet_append_of_some m _ k w hm
    | none =>
        rw [dictGet_append_of_none m _ k hm]
        simp [dictGet, h]

theorem mem_dictKeys_update {α : Type} (m : List (String × α)) (k0 k : String) (v : α)
    (h : k ∈ dictKeys (dictUpdate m k0 v)) : k ∈ dictKeys m ∨ k = k0 := by
  unfold dictUpdate at h
  by_cases hmem : k0 ∈ dictKeys m
  · rw [if_pos hmem] at h
    simp only [dictKeys, List.map_map, List.mem_map] at h
    obtain ⟨p, hp, he⟩ := h
    by_cases hpk : p.1 = k0
    · right
      simpa [Function.comp, hpk] using he.symm
    · left
      simp only [Function.comp, if_neg hpk] at he
      exact he ▸ List.mem_map_of_mem Prod.fst hp
  · rw [if_neg hmem] at h
    simp only [dictKeys, List.map_append, List.mem_append, List.map_cons] at h
    rcases h with h1 | h1
    · exact Or.inl h1
    · right
      simpa using h1

theorem dictUpdate_extends {α : Type} (m0 ext : List (String × α)) (k : String) (v : α)
    (h : ∀ p ∈ m0, p.1 ≠ k) :
    ∃ ext2, dictUpdate (m0 ++ ext) k v = m0 ++ ext2 := by
  unfold dictUpdate
  by_cases hmem : k ∈ dictKeys (m0 ++ ext)
  · rw [if_pos hmem]
    refine ⟨ext.map (fun p => if p.1 = k then (k, v) else p), ?_⟩
    rw [List.map_append]
    have hid : List.map (fun p => if p.1 = k then (k, v) else p) m0 = List.map id m0 := by
      apply List.map_congr_left
      intro p hp
      simp [if_neg (h p hp)]
    rw [hid, List.map_id]
  · rw [if_neg hmem]
    exact ⟨ext ++ [(k, v)], by rw [List.append_assoc]⟩

/-! ### Lemmas about the fuzzy-matching scan -/

theorem firstFuzzyMatch_first :
    ∀ (pre : List (String × String)) (k v merchant : String)
      (post : List (String × String)),
      (∀ p ∈ pre, fuzzScore (lower merchant) (lower p.1) < 80) →
      80 ≤ fuzzScore (lower merchant) (lower k) →
      firstFuzzyMatch (pre ++ (k, v) :: post) merchant = some v
  | [], k, v, merchant, post, _, hk => by
      simp only [List.nil_append, firstFuzzyMatch, if_pos hk]
  | q :: pre, k, v, merchant, post, h, hk => by
      have hq : ¬ 80 ≤ fuzzScore (lower merchant) (lower q.1) :=
        Nat.not_le.mpr (h q (by simp))
      simp only [List.cons_append, firstFuzzyMatch, if_neg hq]
      exact firstFuzzyMatch_first pre k v merchant post
        (fun p hp => h p (by simp [hp])) hk

theorem firstFuzzyMatch_none :
    ∀ (mapping : List (String × String)) (merchant : String),
      (∀ p ∈ mapping, fuzzScore (lower merchant) (lower p.1) < 80) →
      firstFuzzyMatch mapping merchant = none
  | [], _, _ => rfl
  | q :: rest, merchant, h => by
      have hq : ¬ 80 ≤ fuzzScore (lower merchant) (lower q.1) :=
        Nat.not_le.mpr (h q (by simp))
      simp only [firstFuzzyMatch, if_neg hq]
      exact firstFuzzyMatch_none rest merchant (fun p hp => h p (by simp [hp]))

theorem firstFuzzyMatch_append_of_some :
    ∀ (m0 ext : List (String × String)) (merchant v : String),
      firstFuzzyMatch m0 merchant = some v →
      firstFuzzyMatch (m0 ++ ext) merchant = some v
  | [], _, _, _, h => by simp [firstFuzzyMatch] at h
  | q :: rest, ext, merchant, v, h => by
      by_cases hq : 80 ≤ fuzzScore (lower merchant) (lower q.1)
      · simp only [firstFuzzyMatch, if_pos hq] at h
        simp only [List.cons_append, firstFuzzyMatch, if_pos hq]
        exact h
      · simp only [firstFuzzyMatch, if_neg hq] at h
        simp only [List.cons_append, firstFuzzyMatch, if_neg hq]
        exact firstFuzzyMatch_append_of_some rest ext merchant v h

/-! ### Lemmas about the reconciliation pass -/

theorem processUM_get_stable :
    ∀ (l : List String) (M : List (String × String)) (k : String),
      (∀ x ∈ l, x ≠ k) →
      dictGet (process_unrecognized_merchants M l).1 k = dictGet M k
  | [], M, k, _ => rfl
  | merchant :: rest, M, k, h => by
      have hm : merchant ≠ k := h merchant (by simp)
      have hrest : ∀ x ∈ rest, x ≠ k := fun x hx => h x (by simp [hx])
      cases hfm : firstFuzzyMatch M merchant with
      | some v =>
          simp only [process_unrecognized_merchants, hfm]
          rw [processUM_get_stable rest _ k hrest, dictGet_update_ne _ _ _ _ hm]
      | none =>
          simp only [process_unrecognized_merchants, hfm]
          exact processUM_get_stable rest M k hrest

theorem processUM_keys_sub :
    ∀ (l : List String) (M : List (String × String)) (k : String),
      k ∈ dictKeys (process_unrecognized_merchants M l).1 →
      k ∈ dictKeys M ∨ k ∈ l
  | [], M, k, h => Or.inl h
  | merchant :: rest, M, k, h => by
      cases hfm : firstFuzzyMatch M merchant with
      | some v =>
          simp only [process_unrecognized_merchants, hfm] at h
          rcases processUM_keys_sub rest _ k h with h1 | h1
          · rcases mem_dictKeys_update M merchant k v h1 with h2 | h2
            · exact Or.inl h2
            · exact Or.inr (by simp [h2])
          · exact Or.inr (by simp [h1])
      | none =>
          simp only [process_unrecognized_merchants, hfm] at h
          rcases processUM_keys_sub rest M k h with h1 | h1
          · exact Or.inl h1
          · exact Or.inr (by simp [h1])

theorem processUM_resolves_aux :
    ∀ (l : List String) (m0 ext : List (String × String)) (merchant v : String),
      l.Nodup → (∀ x ∈ l, ∀ p ∈ m0, p.1 ≠ x) → merchant ∈ l →
      merchant ∉ dictKeys (m0 ++ ext) →
      firstFuzzyMatch m0 merchant = some v →
      dictGet (process_unrecognized_merchants (m0 ++ ext) l).1 merchant = some v
  | [], _, _, merchant, _, _, _, hmem, _, _ => by simp at hmem
  | x :: rest, m0, ext, merchant, v, hnd, hfresh, hmem, hnotk, hfm0 => by
      by_cases hx : x = merchant
      · subst hx
        have hfm : firstFuzzyMatch (m0 ++ ext) x = some v :=
          firstFuzzyMatch_append_of_some m0 ext x v hfm0
        simp only [process_unrecognized_merchants, hfm]
        have hrest : ∀ y ∈ rest, y ≠ x := by
          intro y hy he
          exact (List.nodup_cons.mp hnd).1 (he ▸ hy)
        rw [processUM_get_stable rest _ x hrest, dictGet_update_self]
      · have hmem2 : merchant ∈ rest := by
          rcases List.mem_cons.mp hmem with h1 | h1
          · exact absurd h1.symm hx
          · exact h1
        have hndr : rest.Nodup := (List.nodup_cons.mp hnd).2
        have hfreshr : ∀ y ∈ rest, ∀ p ∈ m0, p.1 ≠ y :=
          fun y hy => hfresh y (by simp [hy])
        cases hfm : firstFuzzyMatch (m0 ++ ext) x with
        | some vx =>
            simp only [process_unrecognized_merchants, hfm]
            obtain ⟨ext2, hE⟩ :=
              dictUpdate_extends m0 ext x vx (hfresh x (by simp))
            rw [hE]
            apply processUM_resolves_aux rest m0 ext2 merchant v hndr hfreshr hmem2 ?_ hfm0
            intro hk
            rw [← hE] at hk
            rcases mem_dictKeys_update (m0 ++ ext) x merchant vx hk with h1 | h1
            · exact hnotk h1
            · exact hx h1.symm
        | none =>
            simp only [process_unrecognized_merchants, hfm]
            exact processUM_resolves_aux rest m0 ext merchant v hndr hfreshr hmem2 hnotk hfm0

theorem dictGet_eq_none_iff_keys {α : Type} :
    ∀ (m : List (String × α)) (k : String),
      dictGet m k = none ↔ (∀ p ∈ m, p.1 ≠ k)
  | m, k => by
      constructor
      · intro h p hp he
        exact dictGet_ne_none_of_key_mem m p hp (he ▸ h)
      · exact dictGet_eq_none m k

/-! ### Lemmas about the family-assignment loop -/

theorem catMem_none (children : List String) : catMem none children = false := rfl

theorem add_category_family_loop_first :
    ∀ (pre : List (String × List String)) (fam : String) (children : List String)
      (post : List (String × List String)) (cat acc : Option String),
      (∀ p ∈ pre, catMem cat p.2 = false) → catMem cat children = true →
      add_category_family_loop (pre ++ (fam, children) :: post) cat acc = some fam
  | [], fam, children, post, cat, acc, _, hc => by
      simp only [List.nil_append, add_category_family_loop, hc, if_true]
  | q :: pre, fam, children, post, cat, acc, h, hc => by
      have hq : catMem cat q.2 = false := h q (by simp)
      simp only [List.cons_append, add_category_family_loop, hq, Bool.false_eq_true,
        if_false]
      exact add_category_family_loop_first pre fam children post cat (some "Wants")
        (fun p hp => h p (by simp [hp])) hc

theorem add_category_family_loop_no_match :
    ∀ (fm : List (String × List String)) (cat acc : Option String),
      fm ≠ [] → (∀ p ∈ fm, catMem cat p.2 = false) →
      add_category_family_loop fm cat acc = some "Wants"
  | [], _, _, hne, _ => absurd rfl hne
  | q :: rest, cat, acc, _, h => by
      have hq : catMem cat q.2 = false := h q (by simp)
      simp only [add_category_family_loop, hq, Bool.false_eq_true, if_false]
      cases rest with
      | nil => rfl
      | cons r rest2 =>
          exact add_category_family_loop_no_match (r :: rest2) cat (some "Wants")
            (by simp) (fun p hp => h p (by simp [hp]))

/-! ### Claim theorems: merchant categorization and reconciliation -/

/-- C3: for every transaction, categorization looks the description up in
the merchant mapping with an exact, case-sensitive key match; a present key
yields its mapped value, an absent key leaves the category unset (`none`)
and the operation is total (never fails). -/
theorem add_merchant_category_exact :
    ∀ (mm : List (String × String)) (d : String),
      ((∀ p ∈ mm, p.1 ≠ d) → add_merchant_category mm d = none)
      ∧ (∀ v : String, (d, v) ∈ mm → (dictKeys mm).Nodup →
          add_merchant_category mm d = some v) := by
  intro mm d
  constructor
  · exact dictGet_eq_none mm d
  · intro v hv hnd
    exact dictGet_of_mem_nodup mm d v hv hnd

/-- Witness for C3 at a concrete mapping: the lookup is case-sensitive
(the upper-cased query misses the stored key) and an exact key yields its
category. -/
theorem add_merchant_category_exact_witness :
    add_merchant_category [("Starbucks", "Coffee")] "STARBUCKS" = none
    ∧ add_merchant_category [("Starbucks", "Coffee")] "Starbucks" = some "Coffee" :=
  ⟨(add_merchant_category_exact [("Starbucks", "Coffee")] "STARBUCKS").1 (by decide),
   (add_merchant_category_exact [("Starbucks", "Coffee")] "Starbucks").2 "Coffee"
     (by decide) (by decide)⟩

/-- C1: in a reconciliation step the unresolved description is compared
case-insensitively against the existing keys in the mapping's iteration
order; the first key scoring at least 80 wins — the entries after it,
whatever they score, are never consulted — and the description is entered
into the mapping with that key's category value; if every key scores below
80 the description is reported still unresolved and the mapping is left
untouched by that description (its lookup result is unchanged by the whole
pass when it recurs nowhere later). -/
theorem reconcile_first_match :
    (∀ (pre post : List (String × String)) (k v merchant : String) (rest : List String),
      (∀ p ∈ pre, fuzzScore (lower merchant) (lower p.1) < 80) →
      80 ≤ fuzzScore (lower merchant) (lower k) →
      process_unrecognized_merchants (pre ++ (k, v) :: post) (merchant :: rest)
        = process_unrecognized_merchants (dictUpdate (pre ++ (k, v) :: post) merchant v) rest
      ∧ dictGet (dictUpdate (pre ++ (k, v) :: post) merchant v) merchant = some v)
    ∧ (∀ (mapping : List (String × String)) (merchant : String) (rest : List String),
      (∀ p ∈ mapping, fuzzScore (lower merchant) (lower p.1) < 80) →
      process_unrecognized_merchants mapping (merchant :: rest)
        = ((process_unrecognized_merchants mapping rest).1,
           merchant :: (process_unrecognized_merchants mapping rest).2)
      ∧ (merchant ∉ rest →
          dictGet (process_unrecognized_merchants mapping (merchant :: rest)).1 merchant
            = dictGet mapping merchant)) := by
  constructor
  · intro pre post k v merchant rest hpre hk
    have hfm : firstFuzzyMatch (pre ++ (k, v) :: post) merchant = some v :=
      firstFuzzyMatch_first pre k v merchant post hpre hk
    constructor
    · simp only [process_unrecognized_merchants, hfm]
    · exact dictGet_update_self _ merchant v
  · intro mapping merchant rest hall
    have hfm : firstFuzzyMatch mapping merchant = none :=
      firstFuzzyMatch_none mapping merchant hall
    constructor
    · simp only [process_unrecognized_merchants, hfm]
    · intro hnr
      simp only [process_unrecognized_merchants, hfm]
      exact processUM_get_stable rest mapping merchant
        (fun x hx he => hnr (he ▸ hx))

/-- Witness for C1: "STARBUCKSX" skips the low-scoring first key, matches
"STARBUCKS" (score 95) and adopts "Coffee" without consulting the later
entry; "BAKERY" matches nothing, is reported unresolved and stays out of
the mapping. -/
theorem reconcile_first_match_witness :
    (process_unrecognized_merchants
        [("BAKERY", "Food"), ("STARBUCKS", "Coffee"), ("TESCO", "Groceries")]
        ["STARBUCKSX"]
      = process_unrecognized_merchants
          (dictUpdate [("BAKERY", "Food"), ("STARBUCKS", "Coffee"), ("TESCO", "Groceries")]
            "STARBUCKSX" "Coffee") []
      ∧ dictGet (dictUpdate [("BAKERY", "Food"), ("STARBUCKS", "Coffee"), ("TESCO", "Groceries")]
            "STARBUCKSX" "Coffee") "STARBUCKSX" = some "Coffee")
    ∧ (process_unrecognized_merchants [("STARBUCKS", "Coffee")] ["BAKERY"]
        = ((process_unrecognized_merchants [("STARBUCKS", "Coffee")] []).1,
           "BAKERY" :: (process_unrecognized_merchants [("STARBUCKS", "Coffee")] []).2)
      ∧ ("BAKERY" ∉ ([] : List String) →
          dictGet (process_unrecognized_merchants [("STARBUCKS", "Coffee")] ["BAKERY"]).1 "BAKERY"
            = dictGet [("STARBUCKS", "Coffee")] "BAKERY")) :=
  ⟨reconcile_first_match.1 [("BAKERY", "Food")] [("TESCO", "Groceries")]
      "STARBUCKS" "Coffee" "STARBUCKSX" [] (by decide) (by decide),
   reconcile_first_match.2 [("STARBUCKS", "Coffee")] "BAKERY" [] (by decide)⟩

/-- C8 counterexample: the reconciliation outcome depends on the iteration
order of the unresolved set.  With mapping ("AAAAA" to "X"), "AAAAAB"
scores 91 against the key while "AAAABB" scores only 73 against it but 83
against "AAAAAB"; processing "AAAAAB" first learns it and then also
resolves "AAAABB", while the opposite order leaves "AAAABB" unresolved —
the two orders produce different final mappings and different unresolved
reports. -/
theorem reconcile_order_dependent :
    process_unrecognized_merchants [("AAAAA", "X")] ["AAAAAB", "AAAABB"]
      ≠ process_unrecognized_merchants [("AAAAA", "X")] ["AAAABB", "AAAAAB"] := by
  decide

/-- C8 amended: the pipeline is deterministic only relative to a fixed
processing order; what is order-independent is the fate of a description
that fuzzy-matches the original mapping: whatever the order of the
unresolved list, such a description ends up in the final mapping with the
category of its first original match. -/
theorem reconcile_original_match_order_independent :
    ∀ (m0 : List (String × String)) (l : List String) (merchant v : String),
      l.Nodup → (∀ x ∈ l, dictGet m0 x = none) → merchant ∈ l →
      firstFuzzyMatch m0 merchant = some v →
      dictGet (process_unrecognized_merchants m0 l).1 merchant = some v := by
  intro m0 l merchant v hnd hfresh hmem hfm
  have hfreshk : ∀ x ∈ l, ∀ p ∈ m0, p.1 ≠ x :=
    fun x hx => (dictGet_eq_none_iff_keys m0 x).mp (hfresh x hx)
  have hnotk : merchant ∉ dictKeys (m0 ++ []) := by
    rw [List.append_nil]
    intro hk
    simp only [dictKeys, List.mem_map] at hk
    obtain ⟨p, hp, he⟩ := hk
    exact hfreshk merchant hmem p hp he
  have := processUM_resolves_aux l m0 [] merchant v hnd hfreshk hmem hnotk hfm
  rwa [List.append_nil] at this

/-- Witness for the amended C8: even in the order that fails to resolve
"AAAABB", the description "AAAAAB" — which matches the original key — is
still learned with category "X". -/
theorem reconcile_original_match_order_independent_witness :
    dictGet (process_unrecognized_merchants [("AAAAA", "X")] ["AAAABB", "AAAAAB"]).1 "AAAAAB"
      = some "X" :=
  reconcile_original_match_order_independent [("AAAAA", "X")] ["AAAABB", "AAAAAB"]
    "AAAAAB" "X" (by decide) (by decide) (by decide) (by decide)

/-- C9: a reconciliation pass whose inputs are unresolved descriptions
(exact lookup fails for each) never removes or rewrites an existing entry —
every key mapped before the pass is mapped to the same value afterwards —
and every key of the final mapping is either an original key or one of the
input descriptions. -/
theorem reconcile_frame :
    ∀ (m0 : List (String × String)) (l : List String),
      (∀ x ∈ l, dictGet m0 x = none) →
      (∀ (k v : String), dictGet m0 k = some v →
          dictGet (process_unrecognized_merchants m0 l).1 k = some v)
      ∧ (∀ k : String, k ∈ dictKeys (process_unrecognized_merchants m0 l).1 →
          k ∈ dictKeys m0 ∨ k ∈ l) := by
  intro m0 l hfresh
  constructor
  · intro k v hk
    have hne : ∀ x ∈ l, x ≠ k := by
      intro x hx he
      have hx0 := hfresh x hx
      rw [he] at hx0
      exact Option.noConfusion (hk.symm.trans hx0)
    rw [processUM_get_stable l m0 k hne, hk]
  · intro k hk
    exact processUM_keys_sub l m0 k hk

/-- Witness for C9: "BAKERY" (score 40 against the key) matches nothing,
and the pre-existing entry survives the pass unchanged. -/
theorem reconcile_frame_witness :
    dictGet (process_unrecognized_merchants [("STARBUCKS", "Coffee")] ["BAKERY"]).1 "STARBUCKS"
      = some "Coffee"
    ∧ ("BAKERY2" ∈ dictKeys (process_unrecognized_merchants
          [("STARBUCKS", "Coffee")] ["BAKERY"]).1 →
        "BAKERY2" ∈ dictKeys [("STARBUCKS", "Coffee")] ∨ "BAKERY2" ∈ ["BAKERY"]) :=
  ⟨(reconcile_frame [("STARBUCKS", "Coffee")] ["BAKERY"] (by decide)).1
      "STARBUCKS" "Coffee" (by decide),
   (reconcile_frame [("STARBUCKS", "Coffee")] ["BAKERY"] (by decide)).2 "BAKERY2"⟩

/-! ### Claim theorems: family assignment -/

/-- C2 counterexample: with an empty family mapping the loop body never
runs, so the category family is never assigned — it is not set to the
default "Wants" as the claim states. -/
theorem add_category_family_empty_cex :
    add_category_family [] (some "Groceries") ≠ some "Wants" := by
  decide

/-- C2 amended: with an empty family mapping the category family is left
unassigned (`none`); with a nonempty mapping, the first family in
iteration order whose list contains the category wins, a category
contained in no family's list falls back to the default "Wants", and an
unset category always lands in "Wants". -/
theorem add_category_family_spec :
    ∀ (fm : List (String × List String)) (cat : Option String),
      (add_category_family [] cat = none)
      ∧ (∀ (pre post : List (String × List String)) (fam : String) (children : List String),
          fm = pre ++ (fam, children) :: post →
          (∀ p ∈ pre, catMem cat p.2 = false) →
          catMem cat children = true →
          add_category_family fm cat = some fam)
      ∧ (fm ≠ [] → (∀ p ∈ fm, catMem cat p.2 = false) →
          add_category_family fm cat = some "Wants")
      ∧ (fm ≠ [] → add_category_family fm none = some "Wants") := by
  intro fm cat
  refine ⟨rfl, ?_, ?_, ?_⟩
  · intro pre post fam children hsplit hpre hc
    rw [hsplit]
    exact add_category_family_loop_first pre fam children post cat none hpre hc
  · intro hne hall
    exact add_category_family_loop_no_match fm cat none hne hall
  · intro hne
    exact add_category_family_loop_no_match fm none none hne (fun p _ => rfl)

/-- Witness for C2: "Groceries" resolves to the first containing family
"Needs" even though a later family also lists it; an unset category lands
in "Wants". -/
theorem add_category_family_spec_witness :
    add_category_family [("Needs", ["Groceries"]), ("Fun", ["Groceries"])]
        (some "Groceries") = some "Needs"
    ∧ add_category_family [("Needs", ["Groceries"]), ("Fun", ["Groceries"])] none
        = some "Wants" :=
  ⟨(add_category_family_spec [("Needs", ["Groceries"]), ("Fun", ["Groceries"])]
        (some "Groceries")).2.1 [] [("Fun", ["Groceries"])] "Needs" ["Groceries"]
      rfl (by decide) (by decide),
   (add_category_family_spec [("Needs", ["Groceries"]), ("Fun", ["Groceries"])]
        none).2.2.2 (by decide)⟩

/-! ### Aggregation lemmas -/

theorem sortedKeys_nodup (rows : List (Option String × ℚ)) : (sortedKeys rows).Nodup :=
  ((List.perm_insertionSort strLe (rows.filterMap Prod.fst).dedup).nodup_iff).mpr
    (List.nodup_dedup _)

theorem mem_sortedKeys (rows : List (Option String × ℚ)) (k : String) :
    k ∈ sortedKeys rows ↔ ∃ r ∈ rows, r.1 = some k := by
  unfold sortedKeys
  rw [(List.perm_insertionSort strLe (rows.filterMap Prod.fst).dedup).mem_iff,
    List.mem_dedup, List.mem_filterMap]

theorem sortedKeys_sorted (rows : List (Option String × ℚ)) :
    List.Sorted strLe (sortedKeys rows) :=
  List.sorted_insertionSort strLe _

theorem groupSum_cons (r : Option String × ℚ) (rows : List (Option String × ℚ))
    (k : String) :
    groupSum (r :: rows) k = (if r.1 = some k then r.2 else 0) + groupSum rows k := by
  by_cases h : r.1 = some k
  · simp [groupSum, List.filter_cons, h]
  · simp [groupSum, List.filter_cons, h]

theorem groupSum_nonneg (rows : List (Option String × ℚ)) (k : String)
    (h : ∀ r ∈ rows, 0 ≤ r.2) : 0 ≤ groupSum rows k := by
  apply List.sum_nonneg
  intro x hx
  obtain ⟨r, hr, rfl⟩ := List.mem_map.mp hx
  exact h r (List.mem_of_mem_filter hr)

theorem groupSum_le_groupedTotal (rows : List (Option String × ℚ)) (k : String)
    (h : ∀ r ∈ rows, 0 ≤ r.2) (hk : k ∈ sortedKeys rows) :
    groupSum rows k ≤ groupedTotal rows := by
  apply List.single_le_sum
  · intro x hx
    obtain ⟨k2, _, rfl⟩ := List.mem_map.mp hx
    exact groupSum_nonneg rows k2 h
  · exact List.mem_map_of_mem (groupSum rows) hk

theorem sum_map_zero_q : ∀ (K : List String), (K.map (fun _ => (0 : ℚ))).sum = 0
  | [] => rfl
  | _ :: K => by simp [sum_map_zero_q K]

theorem sum_map_add_split (f g : String → ℚ) :
    ∀ (K : List String),
      (K.map (fun k => f k + g k)).sum = (K.map f).sum + (K.map g).sum
  | [] => by simp
  | k :: K => by
      simp only [List.map_cons, List.sum_cons, sum_map_add_split f g K]
      ring

theorem sum_map_ite_zero (k0 : String) (a : ℚ) :
    ∀ (K : List String), k0 ∉ K →
      (K.map (fun k => if k = k0 then a else 0)).sum = 0
  | [], _ => rfl
  | k :: K, h => by
      have hk : k ≠ k0 := fun he => h (by simp [he])
      simp [hk, sum_map_ite_zero k0 a K (fun hm => h (by simp [hm]))]

theorem sum_map_ite_single (k0 : String) (a : ℚ) :
    ∀ (K : List String), K.Nodup → k0 ∈ K →
      (K.map (fun k => if k = k0 then a else 0)).sum = a
  | [], _, h => by simp at h
  | k :: K, hnd, hmem => by
      by_cases hk : k = k0
      · subst hk
        have hnk : k ∉ K := (List.nodup_cons.mp hnd).1
        simp [sum_map_ite_zero k a K hnk]
      · have hm2 : k0 ∈ K := by
          rcases List.mem_cons.mp hmem with h1 | h1
          · exact absurd h1.symm hk
          · exact h1
        simp [hk, sum_map_ite_single k0 a K (List.nodup_cons.mp hnd).2 hm2]

theorem sum_groupSums :
    ∀ (rows : List (Option String × ℚ)) (K : List String), K.Nodup →
      (∀ (k : String) (a : ℚ), (some k, a) ∈ rows → k ∈ K) →
      (K.map (groupSum rows)).sum
        = ((rows.filter (fun r => r.1.isSome)).map Prod.snd).sum
  | [], K, _, _ => by
      have h : K.map (groupSum []) = K.map (fun _ => (0 : ℚ)) :=
        List.map_congr_left (fun k _ => by simp [groupSum])
      simp [h, sum_map_zero_q]
  | r :: rows, K, hnd, hcov => by
      have hcov2 : ∀ (k : String) (a : ℚ), (some k, a) ∈ rows → k ∈ K :=
        fun k a hm => hcov k a (by simp [hm])
      cases hr : r.1 with
      | none =>
          have h2 : K.map (groupSum (r :: rows)) = K.map (groupSum rows) :=
            List.map_congr_left (fun k _ => by rw [groupSum_cons]; simp [hr])
          rw [h2, sum_groupSums rows K hnd hcov2, List.filter_cons]
          simp [hr]
      | some k0 =>
          have hre : (some k0, r.2) = r := by rw [← hr]
          have hk0 : k0 ∈ K := hcov k0 r.2 (hre ▸ List.mem_cons_self r rows)
          have h1 : ∀ k, groupSum (r :: rows) k
              = (if k = k0 then r.2 else 0) + groupSum rows k := by
            intro k
            rw [groupSum_cons, hr]
            congr 1
            by_cases hk : k = k0
            · simp [hk]
            · rw [if_neg (fun he => hk (Option.some.inj he).symm), if_neg hk]
          have h2 : K.map (groupSum (r :: rows))
              = K.map (fun k => (if k = k0 then r.2 else 0) + groupSum rows k) :=
            List.map_congr_left (fun k _ => h1 k)
          rw [h2, sum_map_add_split, sum_map_ite_single k0 r.2 K hnd hk0,
            sum_groupSums rows K hnd hcov2, List.filter_cons]
          simp [hr]
  termination_by rows => rows.length

theorem groupedTotal_eq_includedSum (rows : List (Option String × ℚ)) :
    groupedTotal rows = ((rows.filter (fun r => r.1.isSome)).map Prod.snd).sum := by
  apply sum_groupSums rows (sortedKeys rows) (sortedKeys_nodup rows)
  intro k a hm
  exact (mem_sortedKeys rows k).mpr ⟨(some k, a), hm, rfl⟩

/-! ### Rounding lemmas -/

theorem roundHalfEvenQ_nonneg (x : ℚ) (h : 0 ≤ x) : 0 ≤ roundHalfEvenQ x := by
  have hf : (0 : ℤ) ≤ ⌊x⌋ := Int.floor_nonneg.mpr h
  unfold roundHalfEvenQ
  split_ifs <;> omega

theorem roundHalfEvenQ_le (x : ℚ) (n : ℤ) (h : x ≤ (n : ℚ)) : roundHalfEvenQ x ≤ n := by
  have hfn : ⌊x⌋ ≤ n := by
    have h2 := Int.floor_le_floor h
    rwa [Int.floor_intCast] at h2
  unfold roundHalfEvenQ
  split_ifs with h1 h2 h3
  · exact hfn
  · have hhalf : (1 : ℚ) / 2 ≤ x - ⌊x⌋ := le_of_lt h2
    have hlt : (⌊x⌋ : ℚ) < (n : ℚ) := by linarith
    have : ⌊x⌋ < n := by exact_mod_cast hlt
    omega
  · exact hfn
  · have hhalf : (1 : ℚ) / 2 ≤ x - ⌊x⌋ := not_lt.mp h1
    have hlt : (⌊x⌋ : ℚ) < (n : ℚ) := by linarith
    have : ⌊x⌋ < n := by exact_mod_cast hlt
    omega

/-! ### Concrete aggregation computations shared by several proofs -/

theorem zero_total_example :
    groupedTotal [(some "F", (0 : ℚ))] = 0
    ∧ get_expenses_by_category_families [(some "F", (0 : ℚ))] = [("F", 0, none)] := by
  have hk : sortedKeys [(some "F", (0 : ℚ))] = ["F"] := by decide
  have hFl : (([(some "F", (0 : ℚ))].filter (fun r => decide (r.1 = some "F"))).map
      Prod.snd) = [0] := by decide
  have hF : groupSum [(some "F", (0 : ℚ))] "F" = 0 := by
    rw [groupSum, hFl]; simp
  have ht : groupedTotal [(some "F", (0 : ℚ))] = 0 := by
    rw [groupedTotal, hk]; simp [hF]
  refine ⟨ht, ?_⟩
  simp only [get_expenses_by_category_families]
  rw [hk]
  simp [ht, hF]

theorem quarters_example :
    (∀ r ∈ [(some "A", (25 : ℚ)), (some "B", (75 : ℚ))], 0 ≤ r.2)
    ∧ groupedTotal [(some "A", (25 : ℚ)), (some "B", (75 : ℚ))] = 100
    ∧ get_expenses_by_category_families [(some "A", (25 : ℚ)), (some "B", (75 : ℚ))]
        = [("A", 25, some 25), ("B", 75, some 75)] := by
  have hk : sortedKeys [(some "A", (25 : ℚ)), (some "B", (75 : ℚ))] = ["A", "B"] := by
    decide
  have hAl : (([(some "A", (25 : ℚ)), (some "B", (75 : ℚ))].filter
      (fun r => decide (r.1 = some "A"))).map Prod.snd) = [25] := by decide
  have hBl : (([(some "A", (25 : ℚ)), (some "B", (75 : ℚ))].filter
      (fun r => decide (r.1 = some "B"))).map Prod.snd) = [75] := by decide
  have hA : groupSum [(some "A", (25 : ℚ)), (some "B", (75 : ℚ))] "A" = 25 := by
    rw [groupSum, hAl]; simp
  have hB : groupSum [(some "A", (25 : ℚ)), (some "B", (75 : ℚ))] "B" = 75 := by
    rw [groupSum, hBl]; simp
  have ht : groupedTotal [(some "A", (25 : ℚ)), (some "B", (75 : ℚ))] = 100 := by
    rw [groupedTotal, hk]
    simp [hA, hB]
    norm_num
  refine ⟨?_, ht, ?_⟩
  · intro r hr
    rcases List.mem_cons.mp hr with h1 | h1
    · rw [h1]; norm_num
    · rcases List.mem_cons.mp h1 with h2 | h2
      · rw [h2]; norm_num
      · simp at h2
  · simp only [get_expenses_by_category_families]
    rw [hk, ht]
    simp only [List.map_cons, List.map_nil, hA, hB]
    norm_num [roundHalfEvenQ]

/-! ### Claim theorems: aggregation -/

/-- C4 counterexample: a family aggregation whose grand total is zero but
which still has a group does not get a zero percentage — the pandas float
division of the zero total produces NaN, embedded here as `none`. -/
theorem aggregate_zero_total_cex :
    get_expenses_by_category_families [(some "F", (0 : ℚ))] = [("F", 0, none)]
    ∧ ¬ (∀ r ∈ get_expenses_by_category_families [(some "F", (0 : ℚ))],
          r.2.2 = some 0) := by
  refine ⟨zero_total_example.2, ?_⟩
  intro h
  have h2 := h ("F", 0, none) (by rw [zero_total_example.2]; simp)
  simp at h2

/-- C4 amended: aggregating an empty transaction collection does not fail
and yields an empty breakdown; when the grand total is zero but groups
exist, every group's percentage is undefined (NaN from the float division),
not zero — no exception is raised either way. -/
theorem aggregate_empty_or_zero_total :
    get_expenses_by_category_families [] = []
    ∧ (∀ rows : List (Option String × ℚ), groupedTotal rows = 0 →
        ∀ r ∈ get_expenses_by_category_families rows, r.2.2 = none) := by
  constructor
  · rfl
  · intro rows h0 r hr
    simp only [get_expenses_by_category_families] at hr
    obtain ⟨k, _, rfl⟩ := List.mem_map.mp hr
    simp [h0]

/-- Witness for the amended C4: the empty breakdown, and the `none`
percentage of the zero-total group "F". -/
theorem aggregate_empty_or_zero_total_witness :
    get_expenses_by_category_families [] = []
    ∧ (("F", (0 : ℚ), (none : Option ℤ)) : String × ℚ × Option ℤ).2.2 = none :=
  ⟨aggregate_empty_or_zero_total.1,
   aggregate_empty_or_zero_total.2 [(some "F", (0 : ℚ))] zero_total_example.1
     ("F", 0, none) (by rw [zero_total_example.2]; simp)⟩

/-- C5: with a positive grand total, every row of the family aggregation
carries the percentage round-half-to-even of group total / grand total *
100 — one fixed, consistent tie rule — and when all amounts are
nonnegative that percentage lies in [0, 100]. -/
theorem aggregate_by_family_percentage :
    ∀ rows : List (Option String × ℚ),
      (∀ r ∈ rows, 0 ≤ r.2) → 0 < groupedTotal rows →
      ∀ p ∈ get_expenses_by_category_families rows,
        p.2.2 = some (roundHalfEvenQ (p.2.1 * 100 / groupedTotal rows))
        ∧ ∃ n : ℤ, p.2.2 = some n ∧ 0 ≤ n ∧ n ≤ 100 := by
  intro rows hnn hpos p hp
  simp only [get_expenses_by_category_families] at hp
  obtain ⟨k, hk, rfl⟩ := List.mem_map.mp hp
  have hne : groupedTotal rows ≠ 0 := ne_of_gt hpos
  have hval : 0 ≤ groupSum rows k * 100 / groupedTotal rows :=
    div_nonneg (mul_nonneg (groupSum_nonneg rows k hnn) (by norm_num)) (le_of_lt hpos)
  have hub : groupSum rows k * 100 / groupedTotal rows ≤ ((100 : ℤ) : ℚ) := by
    rw [div_le_iff₀ hpos]
    have hle := groupSum_le_groupedTotal rows k hnn hk
    push_cast
    linarith
  constructor
  · simp [hne]
  · exact ⟨roundHalfEvenQ (groupSum rows k * 100 / groupedTotal rows),
      by simp [hne],
      roundHalfEvenQ_nonneg _ hval,
      roundHalfEvenQ_le _ 100 hub⟩

/-- Witness for C5 at amounts 25 and 75: the "A" row's percentage is the
rounded 25 * 100 / 100 and lies in [0, 100]. -/
theorem aggregate_by_family_percentage_witness :
    (("A", (25 : ℚ), some (25 : ℤ)) : String × ℚ × Option ℤ).2.2
      = some (roundHalfEvenQ
          ((("A", (25 : ℚ), some (25 : ℤ)) : String × ℚ × Option ℤ).2.1 * 100
            / groupedTotal [(some "A", (25 : ℚ)), (some "B", (75 : ℚ))]))
    ∧ ∃ n : ℤ, (("A", (25 : ℚ), some (25 : ℤ)) : String × ℚ × Option ℤ).2.2 = some n
        ∧ 0 ≤ n ∧ n ≤ 100 := by
  apply aggregate_by_family_percentage [(some "A", (25 : ℚ)), (some "B", (75 : ℚ))]
    quarters_example.1
  · rw [quarters_example.2.1]; norm_num
  · rw [quarters_example.2.2]; simp

/-- C7: the by-category view groups rows by category, sums the debit
amounts per group, returns the rows sorted by category name ascending with
no percentage column, and on the spec's example ([10, 20, 30] in "A" and
[40] in "B") yields A = 60 and B = 40. -/
theorem aggregate_by_category_spec :
    ∀ rows : List (Option String × ℚ),
      List.Sorted strLe ((aggregate_by_category rows).map Prod.fst)
      ∧ (∀ k : String,
          k ∈ (aggregate_by_category rows).map Prod.fst ↔ ∃ r ∈ rows, r.1 = some k)
      ∧ (∀ p ∈ aggregate_by_category rows, p.2 = groupSum rows p.1)
      ∧ aggregate_by_category
          [(some "A", (10 : ℚ)), (some "A", 20), (some "A", 30), (some "B", 40)]
        = [("A", 60), ("B", 40)] := by
  intro rows
  have hfst : (aggregate_by_category rows).map Prod.fst = sortedKeys rows := by
    rw [aggregate_by_category, List.map_map,
      show (Prod.fst ∘ fun k => (k, groupSum rows k)) = id from rfl, List.map_id]
  refine ⟨?_, ?_, ?_, ?_⟩
  · rw [hfst]; exact sortedKeys_sorted rows
  · intro k; rw [hfst]; exact mem_sortedKeys rows k
  · intro p hp
    obtain ⟨k, _, rfl⟩ := List.mem_map.mp hp
    rfl
  · have hk : sortedKeys
        [(some "A", (10 : ℚ)), (some "A", 20), (some "A", 30), (some "B", 40)]
        = ["A", "B"] := by decide
    have hAl : (([(some "A", (10 : ℚ)), (some "A", 20), (some "A", 30),
        (some "B", 40)].filter (fun r => decide (r.1 = some "A"))).map Prod.snd)
        = [10, 20, 30] := by decide
    have hBl : (([(some "A", (10 : ℚ)), (some "A", 20), (some "A", 30),
        (some "B", 40)].filter (fun r => decide (r.1 = some "B"))).map Prod.snd)
        = [40] := by decide
    rw [aggregate_by_category, hk]
    simp only [List.map_cons, List.map_nil, groupSum, hAl, hBl, List.sum_cons,
      List.sum_nil]
    norm_num

/-- Witness for C7: the spec's concrete aggregation, and the "A" row's
total read back through the grouping sum. -/
theorem aggregate_by_category_spec_witness :
    aggregate_by_category
        [(some "A", (10 : ℚ)), (some "A", 20), (some "A", 30), (some "B", 40)]
      = [("A", 60), ("B", 40)]
    ∧ (("A", (60 : ℚ)) : String × ℚ).2
        = groupSum [(some "A", (10 : ℚ)), (some "A", 20), (some "A", 30), (some "B", 40)]
            (("A", (60 : ℚ)) : String × ℚ).1 := by
  refine ⟨(aggregate_by_category_spec
    [(some "A", (10 : ℚ)), (some "A", 20), (some "A", 30), (some "B", 40)]).2.2.2, ?_⟩
  apply (aggregate_by_category_spec
    [(some "A", (10 : ℚ)), (some "A", 20), (some "A", 30), (some "B", 40)]).2.2.1
  rw [(aggregate_by_category_spec
    [(some "A", (10 : ℚ)), (some "A", 20), (some "A", 30), (some "B", 40)]).2.2.2]
  simp

/-! ### Claim theorems: the two views of the same statement -/

theorem add_category_family_loop_isSome :
    ∀ (fm : List (String × List String)) (cat acc : Option String), fm ≠ [] →
      ∃ s, add_category_family_loop fm cat acc = some s
  | [], _, _, hne => absurd rfl hne
  | (fam, children) :: rest, cat, acc, _ => by
      by_cases hc : catMem cat children = true
      · exact ⟨fam, by simp only [add_category_family_loop, hc, if_true]⟩
      · have hc2 : catMem cat children = false := by
          cases h2 : catMem cat children
          · rfl
          · exact absurd h2 hc
        cases rest with
        | nil =>
            refine ⟨"Wants", ?_⟩
            simp only [add_category_family_loop, hc2, Bool.false_eq_true, if_false]
        | cons r rest2 =>
            obtain ⟨s, hs⟩ :=
              add_category_family_loop_isSome (r :: rest2) cat (some "Wants") (by simp)
            refine ⟨s, ?_⟩
            simp only [add_category_family_loop, hc2, Bool.false_eq_true, if_false]
            exact hs

theorem sum_map_snd_filter_split (p : (String × ℚ) → Bool) :
    ∀ (l : List (String × ℚ)),
      ((l.filter p).map Prod.snd).sum
        + ((l.filter (fun t => !(p t))).map Prod.snd).sum
        = (l.map Prod.snd).sum
  | [] => by simp
  | t :: l => by
      have hIH := sum_map_snd_filter_split p l
      by_cases hp : p t = true
      · simp only [List.filter_cons, hp, Bool.not_true, Bool.false_eq_true, if_false,
          if_true, List.map_cons, List.sum_cons]
        linarith
      · have hp2 : p t = false := by
          cases h2 : p t
          · rfl
          · exact absurd h2 hp
        simp only [List.filter_cons, hp2, Bool.not_false, Bool.false_eq_true, if_false,
          if_true, List.map_cons, List.sum_cons]
        linarith

/-- C10 counterexample: with an empty family mapping the "Category Family"
column is never created, so the by-family groupby raises KeyError — there
is no by-family aggregate at all.  The unresolved transaction "X" with
positive amount 10 is therefore not "included in the by-family aggregate
under the default family", and no comparison of the two views' grand
totals exists, contrary to the claim. -/
theorem pipeline_views_empty_family_cex :
    add_merchant_category ([] : List (String × String)) "X" = none
    ∧ (0 : ℚ) < 10
    ∧ by_family_view [] [] [("X", (10 : ℚ))] = none := by
  exact ⟨rfl, by norm_num, rfl⟩

/-- C10 amended: with a nonempty family mapping (so every row is assigned
a family and the by-family groupby succeeds) and nonnegative debit
amounts, the by-family grand total covers every transaction while the
by-category grand total covers only the resolved ones; an unresolved
transaction lands under the default family "Wants" and appears in no
category group, and as soon as an unresolved transaction has a positive
amount the two grand totals differ.  With an empty family mapping the
column is absent and the by-family view does not exist (KeyError). -/
theorem pipeline_unresolved_in_family_view :
    ∀ (mm : List (String × String)) (fm : List (String × List String))
      (txns : List (String × ℚ)),
      fm ≠ [] → (∀ t ∈ txns, 0 ≤ t.2) →
      groupedTotal (familize mm fm txns) = (txns.map Prod.snd).sum
      ∧ groupedTotal (categorize mm txns)
          = ((txns.filter (fun t => (add_merchant_category mm t.1).isSome)).map
              Prod.snd).sum
      ∧ (∀ t ∈ txns, add_merchant_category mm t.1 = none →
          add_category_family fm (add_merchant_category mm t.1) = some "Wants"
          ∧ "Wants" ∈ sortedKeys (familize mm fm txns))
      ∧ (∀ t ∈ txns, add_merchant_category mm t.1 = none → 0 < t.2 →
          groupedTotal (categorize mm txns) < groupedTotal (familize mm fm txns))
      ∧ (txns ≠ [] →
          by_family_view mm fm txns
            = some (get_expenses_by_category_families (familize mm fm txns))) := by
  intro mm fm txns hfm hnn
  have hi : groupedTotal (familize mm fm txns) = (txns.map Prod.snd).sum := by
    rw [groupedTotal_eq_includedSum]
    have hall : (familize mm fm txns).filter (fun r => r.1.isSome)
        = familize mm fm txns := by
      apply List.filter_eq_self.mpr
      intro r hr
      obtain ⟨t, _, rfl⟩ := List.mem_map.mp hr
      obtain ⟨s, hs⟩ :=
        add_category_family_loop_isSome fm (add_merchant_category mm t.1) none hfm
      simp [add_category_family, hs]
    rw [hall, familize, List.map_map]
    rfl
  have hii : groupedTotal (categorize mm txns)
      = ((txns.filter (fun t => (add_merchant_category mm t.1).isSome)).map
          Prod.snd).sum := by
    rw [groupedTotal_eq_includedSum, categorize, List.filter_map, List.map_map]
    rfl
  refine ⟨hi, hii, ?_, ?_, ?_⟩
  · intro t ht hnone
    have hw : add_category_family fm (add_merchant_category mm t.1) = some "Wants" := by
      rw [hnone]
      exact add_category_family_loop_no_match fm none none hfm (fun p _ => rfl)
    refine ⟨hw, ?_⟩
    apply (mem_sortedKeys _ "Wants").mpr
    exact ⟨(add_category_family fm (add_merchant_category mm t.1), t.2),
      List.mem_map_of_mem _ ht, hw⟩
  · intro t ht hnone hpos
    rw [hi, hii]
    have hsplit := sum_map_snd_filter_split
      (fun t => (add_merchant_category mm t.1).isSome) txns
    have hmem : t ∈ txns.filter (fun t => !((add_merchant_category mm t.1).isSome)) :=
      List.mem_filter.mpr ⟨ht, by simp [hnone]⟩
    have htle : t.2 ≤ ((txns.filter
        (fun t => !((add_merchant_category mm t.1).isSome))).map Prod.snd).sum := by
      apply List.single_le_sum
      · intro x hx
        obtain ⟨u, hu, rfl⟩ := List.mem_map.mp hx
        exact hnn u (List.mem_of_mem_filter hu)
      · exact List.mem_map_of_mem Prod.snd hmem
    linarith
  · intro htne
    cases txns with
    | nil => exact absurd rfl htne
    | cons t ts =>
        cases fm with
        | nil => exact absurd rfl hfm
        | cons f fs => rfl

/-- Witness for the amended C10: with mapping ("M" to "Food") and family
("Needs" contains "Food"), the by-family view exists, the unresolved
transaction "X" lands in "Wants", and the by-family total strictly
exceeds the by-category total. -/
theorem pipeline_unresolved_in_family_view_witness :
    (add_category_family [("Needs", ["Food"])]
        (add_merchant_category [("M", "Food")] "X") = some "Wants"
      ∧ "Wants" ∈ sortedKeys
          (familize [("M", "Food")] [("Needs", ["Food"])] [("M", (5 : ℚ)), ("X", 10)]))
    ∧ groupedTotal (categorize [("M", "Food")] [("M", (5 : ℚ)), ("X", 10)])
        < groupedTotal
            (familize [("M", "Food")] [("Needs", ["Food"])] [("M", (5 : ℚ)), ("X", 10)])
    ∧ by_family_view [("M", "Food")] [("Needs", ["Food"])] [("M", (5 : ℚ)), ("X", 10)]
        = some (get_expenses_by_category_families
            (familize [("M", "Food")] [("Needs", ["Food"])] [("M", (5 : ℚ)), ("X", 10)])) := by
  have h := pipeline_unresolved_in_family_view [("M", "Food")] [("Needs", ["Food"])]
    [("M", (5 : ℚ)), ("X", 10)] (by simp)
    (by
      intro t ht
      rcases List.mem_cons.mp ht with h1 | h1
      · rw [h1]; norm_num
      · rcases List.mem_cons.mp h1 with h2 | h2
        · rw [h2]; norm_num
        · simp at h2)
  exact ⟨h.2.2.1 ("X", 10) (by simp) rfl,
    h.2.2.2.1 ("X", 10) (by simp) rfl (by norm_num),
    h.2.2.2.2 (by simp)⟩

/-! ### Claim theorem: mapping persistence -/

/-- C6: the reconciliation pass learns "STARBUCKSX" into the in-memory
mapping, but the file write at src/tracker.py:151 targets the module
constant MERCHANT_MAPPING, not the configured path the mapping was loaded
from at src/tracker.py:30; after a run configured with "custom.json" the
updated mapping sits under "merchant_category_mapping.json" while
"custom.json" still stores only the original entry, so reloading the
configured file does not contain the newly learned key — the round trip
fails for any non-default configured path. -/
theorem persistence_path_divergence :
    (process_unrecognized_merchants [("STARBUCKS", "Coffee")] ["STARBUCKSX"]).1
      = [("STARBUCKS", "Coffee"), ("STARBUCKSX", "Coffee")]
    ∧ reconcileRun [("custom.json", [("STARBUCKS", "Coffee")])] "custom.json"
        ["STARBUCKSX"]
      = some ([("custom.json", [("STARBUCKS", "Coffee")]),
               ("merchant_category_mapping.json",
                 [("STARBUCKS", "Coffee"), ("STARBUCKSX", "Coffee")])], [])
    ∧ dictGet [("STARBUCKS", "Coffee")] "STARBUCKSX" = none := by
  decide

end Tracker
